import Mathlib

/-!
Verification development for the musbconv conversion pipeline.

Rust strings are modelled as Lean `String` (or `List Char` where
character-level reasoning is needed), `u8`/`u32` as `Nat`, and `f64`
timing arithmetic as exact rationals `ℚ`.  Fallible operations return
`Option`.  Each definition is a shallow embedding of the correspondingly
named function of the Rust source (file and line references in the doc
comments).
-/

/-- Record of the 24 string-valued metadata fields,
embedding `MetaTags` from `src/meta.rs` (lines 49-75). -/
structure MetaTags where
  title : String
  album : String
  artist : String
  catalog_number : String
  author : String
  comment : String
  composer : String
  lyricist : String
  songwriter : String
  date : String
  disc : String
  discs : String
  disc_id : String
  track : String
  tracks : String
  genre : String
  label : String
  performer : String
  publisher : String
  year : String
  file_name : String
  dir_name : String
  file_base : String
  file_ext : String
deriving DecidableEq, Repr

/-- Leading four-digit run of a string: the anchored regex search
`Regex::new(r"^\d{4}").find(&date)` of `fill_fallback_tags`
(`src/meta.rs` lines 237-241); `\d` is modelled as an ASCII digit. -/
def take4Digits (s : String) : Option String :=
  match s.toList with
  | a :: b :: c :: d :: _ =>
    if a.isDigit && b.isDigit && c.isDigit && d.isDigit then
      some (String.mk [a, b, c, d])
    else none
  | _ => none

/-- Year field after the year⇄date step of `fill_fallback_tags`
(`src/meta.rs` lines 236-245). -/
def fbYear (t : MetaTags) : String :=
  if t.year.isEmpty && !t.date.isEmpty then
    match take4Digits t.date with
    | some y => y
    | none => t.year
  else t.year

/-- Date field after the year⇄date step of `fill_fallback_tags`
(`src/meta.rs` lines 243-245): the `else if` branch assigns `date := year`. -/
def fbDate (t : MetaTags) : String :=
  if !t.year.isEmpty && t.date.isEmpty then t.year else t.date

/-- Title fallback of `fill_fallback_tags` (`src/meta.rs` lines 247-249). -/
def fbTitle (t : MetaTags) : String :=
  if t.title.isEmpty then t.file_base else t.title

/-- Album fallback of `fill_fallback_tags` (`src/meta.rs` lines 251-253). -/
def fbAlbum (t : MetaTags) : String :=
  if t.album.isEmpty then t.dir_name else t.album

/-- Artist fallback of `fill_fallback_tags` (`src/meta.rs` lines 255-261). -/
def fbArtist (t : MetaTags) : String :=
  if t.artist.isEmpty then
    (if !t.author.isEmpty then t.author
     else if !t.performer.isEmpty then t.performer
     else t.artist)
  else t.artist

/-- Author fallback of `fill_fallback_tags` (`src/meta.rs` lines 263-265);
the Rust code reads the artist field after its own update, hence `fbArtist t`. -/
def fbAuthor (t : MetaTags) : String :=
  if t.author.isEmpty && !(fbArtist t).isEmpty then fbArtist t else t.author

/-- Songwriter fallback of `fill_fallback_tags` (`src/meta.rs` lines 267-275);
composer and lyricist are still unmodified at this point, the artist field
has already been updated. -/
def fbSongwriter (t : MetaTags) : String :=
  if t.songwriter.isEmpty then
    (if !t.composer.isEmpty then t.composer
     else if !t.lyricist.isEmpty then t.lyricist
     else if !(fbArtist t).isEmpty then fbArtist t
     else t.songwriter)
  else t.songwriter

/-- Composer fallback of `fill_fallback_tags` (`src/meta.rs` lines 277-279);
reads the songwriter field after its own update. -/
def fbComposer (t : MetaTags) : String :=
  if t.composer.isEmpty && !(fbSongwriter t).isEmpty then fbSongwriter t
  else t.composer

/-- Lyricist fallback of `fill_fallback_tags` (`src/meta.rs` lines 281-283). -/
def fbLyricist (t : MetaTags) : String :=
  if t.lyricist.isEmpty && !(fbSongwriter t).isEmpty then fbSongwriter t
  else t.lyricist

/-- Embedding of `fill_fallback_tags` (`src/meta.rs` lines 233-286): the
sequence of conditional field mutations, written as one field update per
mutated field (each field function reads exactly the intermediate state the
Rust statement sees). -/
def fillFallbackTags (t : MetaTags) : MetaTags :=
  { t with
    year := fbYear t
    date := fbDate t
    title := fbTitle t
    album := fbAlbum t
    artist := fbArtist t
    author := fbAuthor t
    songwriter := fbSongwriter t
    composer := fbComposer t
    lyricist := fbLyricist t }

lemma take4Digits_ne_empty {s y : String} (h : take4Digits s = some y) :
    y.isEmpty = false := by
  unfold take4Digits at h
  rcases hs : s.data with _ | ⟨a, _ | ⟨b, _ | ⟨c, _ | ⟨d, rest⟩⟩⟩⟩ <;>
    simp [String.toList, hs] at h
  rcases h with ⟨_, hy⟩
  subst hy
  rw [← Bool.not_eq_true, String.isEmpty_iff]
  intro hcon
  simpa using congrArg String.data hcon

lemma fft_year (t : MetaTags) : (fillFallbackTags t).year = fbYear t := rfl
lemma fft_date (t : MetaTags) : (fillFallbackTags t).date = fbDate t := rfl
lemma fft_title (t : MetaTags) : (fillFallbackTags t).title = fbTitle t := rfl
lemma fft_album (t : MetaTags) : (fillFallbackTags t).album = fbAlbum t := rfl
lemma fft_artist (t : MetaTags) : (fillFallbackTags t).artist = fbArtist t := rfl
lemma fft_author (t : MetaTags) : (fillFallbackTags t).author = fbAuthor t := rfl
lemma fft_songwriter (t : MetaTags) :
    (fillFallbackTags t).songwriter = fbSongwriter t := rfl
lemma fft_composer (t : MetaTags) :
    (fillFallbackTags t).composer = fbComposer t := rfl
lemma fft_lyricist (t : MetaTags) :
    (fillFallbackTags t).lyricist = fbLyricist t := rfl
lemma fft_performer (t : MetaTags) :
    (fillFallbackTags t).performer = t.performer := rfl
lemma fft_file_base (t : MetaTags) :
    (fillFallbackTags t).file_base = t.file_base := rfl
lemma fft_dir_name (t : MetaTags) :
    (fillFallbackTags t).dir_name = t.dir_name := rfl

lemma fbYear_fft (t : MetaTags) : fbYear (fillFallbackTags t) = fbYear t := by
  rcases h4 : take4Digits t.date with _ | y
  · simp only [fbYear, fft_year, fft_date, fbDate]
    split_ifs <;> simp_all [h4]
  · have hy := take4Digits_ne_empty h4
    simp only [fbYear, fft_year, fft_date, fbDate]
    split_ifs <;> simp_all [h4]

lemma fbDate_fft (t : MetaTags) : fbDate (fillFallbackTags t) = fbDate t := by
  rcases h4 : take4Digits t.date with _ | y
  · simp only [fbDate, fft_year, fft_date, fbYear]
    split_ifs <;> simp_all [h4]
  · have hy := take4Digits_ne_empty h4
    simp only [fbDate, fft_year, fft_date, fbYear]
    split_ifs <;> simp_all [h4]

lemma fbTitle_fft (t : MetaTags) : fbTitle (fillFallbackTags t) = fbTitle t := by
  simp only [fbTitle, fft_title, fft_file_base]
  split_ifs <;> simp_all [fbTitle]

lemma fbAlbum_fft (t : MetaTags) : fbAlbum (fillFallbackTags t) = fbAlbum t := by
  simp only [fbAlbum, fft_album, fft_dir_name]
  split_ifs <;> simp_all [fbAlbum]

lemma fbArtist_fft (t : MetaTags) : fbArtist (fillFallbackTags t) = fbArtist t := by
  simp only [fbArtist, fft_artist, fft_author, fft_performer, fbAuthor]
  split_ifs <;> simp_all [fbArtist]

lemma fbAuthor_fft (t : MetaTags) : fbAuthor (fillFallbackTags t) = fbAuthor t := by
  simp only [fbAuthor, fbArtist_fft, fft_author, fft_artist]
  split_ifs <;> simp_all [fbAuthor, fbArtist]

lemma fbSongwriter_fft (t : MetaTags) :
    fbSongwriter (fillFallbackTags t) = fbSongwriter t := by
  simp only [fbSongwriter, fbArtist_fft, fft_songwriter, fft_composer,
    fft_lyricist, fbComposer, fbLyricist]
  split_ifs <;> simp_all [fbSongwriter]

lemma fbComposer_fft (t : MetaTags) :
    fbComposer (fillFallbackTags t) = fbComposer t := by
  simp only [fbComposer, fbSongwriter_fft, fft_composer]
  split_ifs <;> simp_all [fbComposer]

lemma fbLyricist_fft (t : MetaTags) :
    fbLyricist (fillFallbackTags t) = fbLyricist t := by
  simp only [fbLyricist, fbSongwriter_fft, fft_lyricist]
  split_ifs <;> simp_all [fbLyricist]

/-- C2: the tag-fallback chain of `fill_fallback_tags` (`src/meta.rs`
lines 233-286) is idempotent: applying it twice to any `MetaTags` record
yields the same record as applying it once. -/
theorem fillFallbackTags_idempotent (t : MetaTags) :
    fillFallbackTags (fillFallbackTags t) = fillFallbackTags t := by
  show ({ fillFallbackTags t with
    year := fbYear (fillFallbackTags t)
    date := fbDate (fillFallbackTags t)
    title := fbTitle (fillFallbackTags t)
    album := fbAlbum (fillFallbackTags t)
    artist := fbArtist (fillFallbackTags t)
    author := fbAuthor (fillFallbackTags t)
    songwriter := fbSongwriter (fillFallbackTags t)
    composer := fbComposer (fillFallbackTags t)
    lyricist := fbLyricist (fillFallbackTags t) } : MetaTags)
    = fillFallbackTags t
  rw [fbYear_fft, fbDate_fft, fbTitle_fft, fbAlbum_fft, fbArtist_fft,
    fbAuthor_fft, fbSongwriter_fft, fbComposer_fft, fbLyricist_fft]
  rfl

/-- MetaTags record with every field set to the non-empty string "x",
used to instantiate hypothesis-bearing theorems. -/
def allXTags : MetaTags :=
  ⟨"x", "x", "x", "x", "x", "x", "x", "x", "x", "x", "x", "x",
   "x", "x", "x", "x", "x", "x", "x", "x", "x", "x", "x", "x"⟩

/-- C10: `fill_fallback_tags` (`src/meta.rs` lines 233-286) never changes an
already non-empty field: for each of the nine fields it may assign, a
non-empty input value is preserved verbatim, and the remaining fifteen
fields are preserved unconditionally. -/
theorem fillFallbackTags_preserves_nonempty (t : MetaTags) :
    (t.year.isEmpty = false → (fillFallbackTags t).year = t.year) ∧
    (t.date.isEmpty = false → (fillFallbackTags t).date = t.date) ∧
    (t.title.isEmpty = false → (fillFallbackTags t).title = t.title) ∧
    (t.album.isEmpty = false → (fillFallbackTags t).album = t.album) ∧
    (t.artist.isEmpty = false → (fillFallbackTags t).artist = t.artist) ∧
    (t.author.isEmpty = false → (fillFallbackTags t).author = t.author) ∧
    (t.songwriter.isEmpty = false →
      (fillFallbackTags t).songwriter = t.songwriter) ∧
    (t.composer.isEmpty = false → (fillFallbackTags t).composer = t.composer) ∧
    (t.lyricist.isEmpty = false → (fillFallbackTags t).lyricist = t.lyricist) ∧
    (fillFallbackTags t).catalog_number = t.catalog_number ∧
    (fillFallbackTags t).comment = t.comment ∧
    (fillFallbackTags t).disc = t.disc ∧
    (fillFallbackTags t).discs = t.discs ∧
    (fillFallbackTags t).disc_id = t.disc_id ∧
    (fillFallbackTags t).track = t.track ∧
    (fillFallbackTags t).tracks = t.tracks ∧
    (fillFallbackTags t).genre = t.genre ∧
    (fillFallbackTags t).label = t.label ∧
    (fillFallbackTags t).performer = t.performer ∧
    (fillFallbackTags t).publisher = t.publisher ∧
    (fillFallbackTags t).file_name = t.file_name ∧
    (fillFallbackTags t).dir_name = t.dir_name ∧
    (fillFallbackTags t).file_base = t.file_base ∧
    (fillFallbackTags t).file_ext = t.file_ext := by
  refine ⟨fun h => ?_, fun h => ?_, fun h => ?_, fun h => ?_, fun h => ?_,
    fun h => ?_, fun h => ?_, fun h => ?_, fun h => ?_,
    rfl, rfl, rfl, rfl, rfl, rfl, rfl, rfl, rfl, rfl, rfl, rfl, rfl, rfl, rfl⟩ <;>
    simp [fillFallbackTags, fbYear, fbDate, fbTitle, fbAlbum, fbArtist,
      fbAuthor, fbSongwriter, fbComposer, fbLyricist, h]

/-- Witness for `fillFallbackTags_preserves_nonempty` at a record whose
fields are all the non-empty string "x". -/
theorem fillFallbackTags_preserves_nonempty_witness :
    (fillFallbackTags allXTags).year = allXTags.year ∧
    (fillFallbackTags allXTags).title = allXTags.title ∧
    (fillFallbackTags allXTags).artist = allXTags.artist :=
  ⟨(fillFallbackTags_preserves_nonempty allXTags).1 (by decide),
   (fillFallbackTags_preserves_nonempty allXTags).2.2.1 (by decide),
   (fillFallbackTags_preserves_nonempty allXTags).2.2.2.2.1 (by decide)⟩

/-- Zero string left-padding to a minimum width, embedding the Rust
formatter `format!("{:0>width$}", s)` used in `conv_item`
(`src/convert.rs` lines 118 and 122); the width is counted in characters. -/
def leftPad0 (w : Nat) (s : String) : String :=
  if s.length < w then String.mk (List.replicate (w - s.length) '0') ++ s
  else s

/-- Byte length of a string, embedding Rust `str::len` as used in
`tags.tracks.len()` (`src/convert.rs` line 121). -/
def rustLen (s : String) : Nat := s.utf8ByteSize

/-- Track/tracks number padding of `conv_item` (`src/convert.rs` lines
116-123): first `tracks` is padded to the configured minimum width, then
`track` is padded to the maximum of the padded tracks' byte length and the
minimum width.  Empty fields are left untouched. -/
def padTrackTags (minDigits : Nat) (t : MetaTags) : MetaTags :=
  let t1 := if t.tracks.isEmpty then t
    else { t with tracks := leftPad0 minDigits t.tracks }
  if t1.track.isEmpty then t1
  else { t1 with track := leftPad0 (max (rustLen t1.tracks) minDigits) t1.track }

lemma string_isEmpty_false_iff {s : String} : s.isEmpty = false ↔ s.data ≠ [] := by
  rw [← Bool.not_eq_true, String.isEmpty_iff, String.ext_iff]

lemma leftPad0_ne_empty {s : String} (w : Nat) (h : s.isEmpty = false) :
    (leftPad0 w s).isEmpty = false := by
  rw [string_isEmpty_false_iff] at h ⊢
  unfold leftPad0
  split_ifs
  · simp [String.data_append, h]
  · exact h

/-- MetaTags record with every field empty. -/
def emptyTags : MetaTags :=
  ⟨"", "", "", "", "", "", "", "", "", "", "", "",
   "", "", "", "", "", "", "", "", "", "", "", ""⟩

/-- C4: for non-empty track/tracks fields, `conv_item` (`src/convert.rs`
lines 116-123) zero-pads `tracks` to at least the configured minimum digit
width and then zero-pads `track` to at least `max(len(padded tracks),
minimum)`; in particular with minimum 3, track "42"/tracks "50" become
"042"/"050", and with minimum 1, track "13"/tracks "150" become
"013"/"150". -/
theorem conv_item_padding (t : MetaTags) (m : Nat)
    (h1 : t.tracks.isEmpty = false) (h2 : t.track.isEmpty = false) :
    (padTrackTags m t).tracks = leftPad0 m t.tracks ∧
    (padTrackTags m t).track
      = leftPad0 (max (rustLen (leftPad0 m t.tracks)) m) t.track ∧
    (padTrackTags 3 { emptyTags with track := "42", tracks := "50" }).track
      = "042" ∧
    (padTrackTags 3 { emptyTags with track := "42", tracks := "50" }).tracks
      = "050" ∧
    (padTrackTags 1 { emptyTags with track := "13", tracks := "150" }).track
      = "013" ∧
    (padTrackTags 1 { emptyTags with track := "13", tracks := "150" }).tracks
      = "150" := by
  have hpad : (leftPad0 m t.tracks).isEmpty = false := leftPad0_ne_empty m h1
  refine ⟨?_, ?_, by decide, by decide, by decide, by decide⟩ <;>
    simp [padTrackTags, h1, h2, hpad]

/-- Witness for `conv_item_padding` at track "42", tracks "50", minimum 3. -/
theorem conv_item_padding_witness :
    (padTrackTags 3 { emptyTags with track := "42", tracks := "50" }).tracks
      = leftPad0 3 "50" :=
  (conv_item_padding { emptyTags with track := "42", tracks := "50" } 3
    (by decide) (by decide)).1

/-- Per-item outcome, embedding `ItemResult` from `src/entry.rs`
(lines 12-15). -/
inductive ItemResult where
  | filename (s : String)
  | error (e : String)
deriving DecidableEq, Repr

/-- Inner scan of the collision loop (`src/entry.rs` lines 88-98): the first
later item (by original order) whose result is a successful filename equal
to `f`; returns that item's source filename. -/
def findLaterDup (f : String) : List (String × ItemResult) → Option String
  | [] => none
  | (name, ItemResult.filename g) :: rest =>
    if g = f then some name else findLaterDup f rest
  | (_, ItemResult.error _) :: rest => findLaterDup f rest

/-- Outcome aggregation and collision detection of `main`
(`src/entry.rs` lines 83-107) over the per-item results paired with each
item's source filename; returns `(valid_filenames, errs)` in loop order. -/
def collectResults : List (String × ItemResult) → List String × List String
  | [] => ([], [])
  | (name, r) :: rest =>
    let vs := (collectResults rest).1
    let es := (collectResults rest).2
    match r with
    | ItemResult.error e => (vs, (name ++ ": " ++ e) :: es)
    | ItemResult.filename f =>
      match findLaterDup f rest with
      | some other =>
        (vs, (name ++ ": resolves to " ++ f ++ " just as " ++ other) :: es)
      | none => (f :: vs, es)

/-- Output paths of the successful results, in original order. -/
def successPaths : List (String × ItemResult) → List String
  | [] => []
  | (_, ItemResult.filename f) :: rest => f :: successPaths rest
  | (_, ItemResult.error _) :: rest => successPaths rest

/-- Keep, for each value, only its last occurrence in the list. -/
def dedupKeepLast : List String → List String
  | [] => []
  | f :: rest => if f ∈ rest then dedupKeepLast rest else f :: dedupKeepLast rest

lemma findLaterDup_eq_none_iff (f : String) (l : List (String × ItemResult)) :
    findLaterDup f l = none ↔ f ∉ successPaths l := by
  induction l with
  | nil => simp [findLaterDup, successPaths]
  | cons p rest ih =>
    rcases p with ⟨name, r⟩
    rcases r with g | e
    · by_cases hg : g = f
      · subst hg
        simp [findLaterDup, successPaths]
      · simp [findLaterDup, successPaths, hg, ih, Ne.symm hg]
    · simp [findLaterDup, successPaths, ih]

lemma findLaterDup_mem {f other : String} {l : List (String × ItemResult)}
    (h : findLaterDup f l = some other) :
    (other, ItemResult.filename f) ∈ l := by
  induction l with
  | nil => simp [findLaterDup] at h
  | cons p rest ih =>
    rcases p with ⟨name, r⟩
    rcases r with g | e
    · by_cases hg : g = f
      · subst hg
        simp [findLaterDup] at h
        simp [h]
      · rw [findLaterDup, if_neg hg] at h
        exact List.mem_cons_of_mem _ (ih h)
    · rw [findLaterDup] at h
      exact List.mem_cons_of_mem _ (ih h)


lemma collectResults_valid_eq (l : List (String × ItemResult)) :
    (collectResults l).1 = dedupKeepLast (successPaths l) := by
  induction l with
  | nil => rfl
  | cons p rest ih =>
    rcases p with ⟨name, r⟩
    rcases r with f | e
    · rcases hd : findLaterDup f rest with _ | other
      · have hf : f ∉ successPaths rest := (findLaterDup_eq_none_iff f rest).mp hd
        simp [collectResults, hd, successPaths, dedupKeepLast, hf, ih]
      · have hf : f ∈ successPaths rest := by
          by_contra hc
          rw [← findLaterDup_eq_none_iff] at hc
          rw [hc] at hd
          cases hd
        simp [collectResults, hd, successPaths, dedupKeepLast, hf, ih]
    · simp [collectResults, successPaths, ih]

lemma count_dedupKeepLast (xs : List String) (f : String) :
    (dedupKeepLast xs).count f = if f ∈ xs then 1 else 0 := by
  induction xs with
  | nil => simp [dedupKeepLast]
  | cons x rest ih =>
    by_cases hx : x ∈ rest
    · rw [dedupKeepLast, if_pos hx]
      by_cases hf : f = x
      · subst hf
        simp [List.mem_cons, hx, ih]
      · simp [List.mem_cons, hf, ih]
    · rw [dedupKeepLast, if_neg hx]
      by_cases hf : f = x
      · subst hf
        simp [List.count_cons, List.mem_cons, hx, ih]
      · simp [List.count_cons, List.mem_cons, hf, ih]

lemma collectResults_errs_mono {x : String} {p : String × ItemResult}
    {rest : List (String × ItemResult)}
    (h : x ∈ (collectResults rest).2) : x ∈ (collectResults (p :: rest)).2 := by
  rcases p with ⟨name, r⟩
  rcases r with f | e
  · rcases hd : findLaterDup f rest with _ | other <;>
      simp [collectResults, hd, h]
  · simp [collectResults, h]

lemma collectResults_err_of_dup :
    ∀ (pre post : List (String × ItemResult)) (name f : String),
      f ∈ successPaths post →
      ∃ other, (other, ItemResult.filename f) ∈ post ∧
        (name ++ ": resolves to " ++ f ++ " just as " ++ other)
          ∈ (collectResults (pre ++ (name, ItemResult.filename f) :: post)).2 := by
  intro pre
  induction pre with
  | nil =>
    intro post name f hf
    rcases hd : findLaterDup f post with _ | other
    · exact absurd hf ((findLaterDup_eq_none_iff f post).mp hd)
    · exact ⟨other, findLaterDup_mem hd, by simp [collectResults, hd]⟩
  | cons p pre' ih =>
    intro post name f hf
    obtain ⟨other, hmem, herr⟩ := ih post name f hf
    exact ⟨other, hmem, collectResults_errs_mono herr⟩

/-- C1 counterexample: with two items ("a.flac" then "b.flac") both resolving
to "out.mp3", the collision pass of `main` (`src/entry.rs` lines 83-107)
demotes the FIRST item to an error whose message references the LATER item,
and keeps the last occurrence — not, as claimed, all but the first demoted
with messages referencing the earlier item. -/
theorem collision_first_demoted_counterexample :
    (collectResults [("a.flac", ItemResult.filename "out.mp3"),
                     ("b.flac", ItemResult.filename "out.mp3")]).1
      = ["out.mp3"] ∧
    (collectResults [("a.flac", ItemResult.filename "out.mp3"),
                     ("b.flac", ItemResult.filename "out.mp3")]).2
      = ["a.flac: resolves to out.mp3 just as b.flac"] ∧
    "a.flac: resolves to out.mp3 just as b.flac"
      ≠ "b.flac: resolves to out.mp3 just as a.flac" := by decide

/-- C1 (amended): after all items complete, collision detection over the
per-item outcomes (`src/entry.rs` lines 83-107) keeps, among several
successful items resolving to the identical output path, exactly the LAST
occurrence (in original item order) as a valid result — formally, the valid
list keeps the last occurrence of each successful path, each path occurs at
most once among valid results — and every success followed by a later item
claiming the same path is demoted to an error whose message references that
later item. -/
theorem collision_detection_keeps_last (L : List (String × ItemResult)) :
    (collectResults L).1 = dedupKeepLast (successPaths L) ∧
    (∀ f : String, (collectResults L).1.count f
        = if f ∈ successPaths L then 1 else 0) ∧
    (∀ pre post : List (String × ItemResult), ∀ name f : String,
      L = pre ++ (name, ItemResult.filename f) :: post →
      f ∈ successPaths post →
      ∃ other : String, (other, ItemResult.filename f) ∈ post ∧
        (name ++ ": resolves to " ++ f ++ " just as " ++ other)
          ∈ (collectResults L).2) := by
  refine ⟨collectResults_valid_eq L, ?_, ?_⟩
  · intro f
    rw [collectResults_valid_eq, count_dedupKeepLast]
  · intro pre post name f hL hf
    subst hL
    exact collectResults_err_of_dup pre post name f hf

/-- Witness for `collision_detection_keeps_last`: the demotion clause applied
to a concrete two-item collision. -/
theorem collision_detection_keeps_last_witness :
    ∃ other : String,
      (other, ItemResult.filename "p") ∈ [("b", ItemResult.filename "p")] ∧
      ("a" ++ ": resolves to " ++ "p" ++ " just as " ++ other)
        ∈ (collectResults [("a", ItemResult.filename "p"),
                           ("b", ItemResult.filename "p")]).2 :=
  (collision_detection_keeps_last
      [("a", ItemResult.filename "p"), ("b", ItemResult.filename "p")]).2.2
    [] [("b", ItemResult.filename "p")] "a" "p" rfl (by decide)

/-- CUE track as consumed from the cuna parser: declared track number
(`Track::id`, a `u8`), index entries as (index id, begin time in frames)
pairs (`Track::index` with `begin_time.as_frames()`, a `u32`), and the
textual track-level commands (`title`/`performer`/`songwriter` return
`&[String]`). -/
structure CueTrack where
  id : Nat
  indexes : List (Nat × Nat)
  title : List String
  performer : List String
  songwriter : List String
deriving DecidableEq, Repr

/-- Disc-level data of a parsed CUE sheet (cuna `Cuna`): header
title/performer/songwriter command values and the REM comment lines. -/
structure CueSheet where
  title : List String
  performer : List String
  songwriter : List String
  comments : List String
deriving DecidableEq, Repr

/-- Extracted per-track data, embedding `CueInfo` from `src/cue.rs`
(lines 16-28); the `f64` start/duration seconds are modelled as exact
rationals. -/
structure CueInfo where
  start : ℚ
  duration : Option ℚ
  album : String
  title : String
  performer : String
  songwriter : String
  genre : String
  date : String
  disc_id : String
  track : String
  tracks : String
deriving DecidableEq, Repr

/-- CD audio frame rate, `CUE_FRAMES_IN_SECOND` (`src/cue.rs` line 14). -/
def cueFramesInSecond : Nat := 75

/-- Embedding of `track_start` (`src/cue.rs` lines 109-116): frame count of
the first index entry whose id is 1. -/
def trackStart (t : CueTrack) : Option Nat :=
  (t.indexes.find? (fun i => i.1 == 1)).map (fun i => i.2)

/-- Embedding of `max_track_index` (`src/cue.rs` lines 90-98). -/
def maxTrackIndex (tracks : List CueTrack) : Nat :=
  tracks.foldl (fun m t => if t.id > m then t.id else m) 0

/-- Embedding of `track_by_index` (`src/cue.rs` lines 100-107): first track
with the given id. -/
def trackByIndex (tracks : List CueTrack) (i : Nat) : Option CueTrack :=
  tracks.find? (fun t => t.id == i)

/-- Embedding of `opt_str` (`src/cue.rs` lines 118-123). -/
def optStr (s : List String) (d : String) : String :=
  match s with
  | x :: _ => x
  | [] => d

/-- Case-insensitive literal prefix match; on success returns the rest of
the line.  Models the `(?i)^<escaped tag>` portion of the comment regex of
`extract_comment` (`src/cue.rs` line 126). -/
def caseInsensPrefix : List Char → List Char → Option (List Char)
  | [], rest => some rest
  | _ :: _, [] => none
  | t :: ts, c :: cs =>
    if t.toLower == c.toLower then caseInsensPrefix ts cs else none

/-- Captured group of the `\s+(.+)"?$` tail of the comment regex
(`src/cue.rs` line 126): at least one whitespace character, then the
greedy remainder (with the usual backtracking when the remainder would be
empty); the trailing `"?` matches the empty string. -/
def wsCaptureVal (rest : List Char) : Option (List Char) :=
  match rest with
  | [] => none
  | c :: cs =>
    if c.isWhitespace then
      let value := (c :: cs).dropWhile Char.isWhitespace
      if value.isEmpty then
        match cs with
        | [] => none
        | _ :: _ => ((c :: cs).getLast?).map (fun x => [x])
      else some value
    else none

/-- Surrounding double-quote stripping of `extract_comment`
(`src/cue.rs` lines 131-135). -/
def stripQuotes (s : List Char) : List Char :=
  match s with
  | [] => []
  | c :: cs =>
    if c == '"' && (c :: cs).getLast? == some '"' && (c :: cs).length > 1 then
      ((c :: cs).drop 1).dropLast
    else c :: cs

/-- Embedding of `extract_comment` (`src/cue.rs` lines 125-141): value of
the first comment line matching `(?i)^<tag>\s+(.+)"?$`, quotes stripped;
empty string when no comment matches. -/
def extractComment (comments : List String) (tag : String) : String :=
  match comments.findSome? (fun line =>
      (caseInsensPrefix tag.toList line.toList).bind
        (fun rest => (wsCaptureVal rest).map stripQuotes)) with
  | some v => String.mk v
  | none => ""

/-- Duration in frames of `cue_track_info` (`src/cue.rs` lines 145-152):
the next track's index-1 start minus this track's, only when the next track
exists, has an index-1 marker, and starts strictly later. -/
def durFrames (start : Nat) (next_track : Option CueTrack) : Option Nat :=
  match next_track with
  | some nt =>
    match trackStart nt with
    | some nextStart =>
      if nextStart > start then some (nextStart - start) else none
    | none => none
  | none => none

/-- Embedding of `cue_track_info` (`src/cue.rs` lines 143-171).  The Rust
`.to_string().trim().to_string()` on a `u8` is the identity on the decimal
rendering, modelled as `toString`. -/
def cueTrackInfo (track : CueTrack) (next_track : Option CueTrack)
    (maxIdx : Nat) (cd : CueSheet) : Option CueInfo :=
  match trackStart track with
  | none => none
  | some start =>
    some {
      start := (start : ℚ) / (cueFramesInSecond : ℚ)
      duration :=
        (durFrames start next_track).map
          (fun d => (d : ℚ) / (cueFramesInSecond : ℚ))
      album := optStr cd.title ""
      title := optStr track.title ""
      performer := optStr track.performer (optStr cd.performer "")
      songwriter := optStr track.songwriter (optStr cd.songwriter "")
      genre := extractComment cd.comments "GENRE"
      date := extractComment cd.comments "DATE"
      disc_id := extractComment cd.comments "DISCID"
      track := toString track.id
      tracks := toString maxIdx }

/-- Embedding of the per-file-block loop of `find_cue_info_in_file`
(`src/cue.rs` lines 54-63): one CueInfo per track of the first file block,
with the next track looked up by id + 1. -/
def cueFileInfos (tracks : List CueTrack) (cd : CueSheet) : List CueInfo :=
  tracks.filterMap (fun t =>
    cueTrackInfo t (trackByIndex tracks (t.id + 1)) (maxTrackIndex tracks) cd)

/-- Sheet with no header commands and no comments. -/
def emptySheet : CueSheet := ⟨[], [], [], []⟩

lemma cueTrackInfo_some {track : CueTrack} {start : Nat}
    (nt : Option CueTrack) (maxIdx : Nat) (cd : CueSheet)
    (h : trackStart track = some start) :
    cueTrackInfo track nt maxIdx cd = some {
      start := (start : ℚ) / (cueFramesInSecond : ℚ)
      duration :=
        (durFrames start nt).map (fun d => (d : ℚ) / (cueFramesInSecond : ℚ))
      album := optStr cd.title ""
      title := optStr track.title ""
      performer := optStr track.performer (optStr cd.performer "")
      songwriter := optStr track.songwriter (optStr cd.songwriter "")
      genre := extractComment cd.comments "GENRE"
      date := extractComment cd.comments "DATE"
      disc_id := extractComment cd.comments "DISCID"
      track := toString track.id
      tracks := toString maxIdx } := by
  unfold cueTrackInfo
  rw [h]

/-- C6: for every CUE track with a valid index-1 marker, the start produced
by `cue_track_info` (`src/cue.rs` lines 143-171) is the marker's frame count
divided by 75 (75 frames give exactly 1 second, 150 exactly 2), and the
duration is the next-higher-indexed track's start minus this track's start
in seconds exactly when that next track exists, has an index-1 marker and
starts strictly later, and is absent otherwise. -/
theorem cue_track_timing (tracks : List CueTrack) (cd : CueSheet)
    (t : CueTrack) (start : Nat) (h : trackStart t = some start) :
    ∃ info : CueInfo,
      cueTrackInfo t (trackByIndex tracks (t.id + 1)) (maxTrackIndex tracks) cd
        = some info ∧
      info.start = (start : ℚ) / 75 ∧
      (∀ nt nextStart, trackByIndex tracks (t.id + 1) = some nt →
        trackStart nt = some nextStart →
        (start < nextStart →
          info.duration = some ((nextStart : ℚ) / 75 - (start : ℚ) / 75)) ∧
        (¬ start < nextStart → info.duration = none)) ∧
      (∀ nt, trackByIndex tracks (t.id + 1) = some nt → trackStart nt = none →
        info.duration = none) ∧
      (trackByIndex tracks (t.id + 1) = none → info.duration = none) ∧
      (Option.map CueInfo.start
        (cueTrackInfo ⟨1, [(1, 75)], [], [], []⟩ none 1 emptySheet)
        = some 1) ∧
      (Option.map CueInfo.start
        (cueTrackInfo ⟨1, [(1, 150)], [], [], []⟩ none 1 emptySheet)
        = some 2) := by
  refine ⟨_, cueTrackInfo_some _ _ cd h, rfl, ?_, ?_, ?_, ?_, ?_⟩
  · intro nt nextStart h1 h2
    constructor
    · intro hlt
      simp [durFrames, h1, h2, hlt, cueFramesInSecond,
        Nat.cast_sub (Nat.le_of_lt hlt), sub_div]
    · intro hge
      simp [durFrames, h1, h2, hge]
  · intro nt h1 h2
    simp [durFrames, h1, h2]
  · intro h1
    simp [durFrames, h1]
  · norm_num [cueTrackInfo, trackStart, cueFramesInSecond]
  · norm_num [cueTrackInfo, trackStart, cueFramesInSecond]

/-- Witness for `cue_track_timing`: a concrete two-track sheet where track 1
starts at frame 75 and track 2 at frame 150. -/
theorem cue_track_timing_witness :
    ∃ info : CueInfo,
      cueTrackInfo ⟨1, [(1, 75)], [], [], []⟩
        (trackByIndex [⟨1, [(1, 75)], [], [], []⟩, ⟨2, [(1, 150)], [], [], []⟩]
          (1 + 1))
        (maxTrackIndex
          [⟨1, [(1, 75)], [], [], []⟩, ⟨2, [(1, 150)], [], [], []⟩])
        emptySheet = some info ∧
      info.start = (75 : ℚ) / 75 := by
  obtain ⟨info, h1, h2, _⟩ := cue_track_timing
    [⟨1, [(1, 75)], [], [], []⟩, ⟨2, [(1, 150)], [], [], []⟩]
    emptySheet ⟨1, [(1, 75)], [], [], []⟩ 75 (by decide)
  exact ⟨info, h1, h2⟩

/-- C7 counterexample: a one-track file block whose sole track is declared
with id 2 produces a CueInfo whose track field is "2" — the track's declared
id — not "1", its 1-based position within the block. -/
theorem cue_track_position_counterexample :
    (cueFileInfos [⟨2, [(1, 0)], [], [], []⟩] emptySheet).map CueInfo.track
      = ["2"] ∧
    (cueFileInfos [⟨2, [(1, 0)], [], [], []⟩] emptySheet).length = 1 ∧
    "2" ≠ "1" := by
  refine ⟨?_, rfl, by decide⟩
  rfl

/-- C7 (amended): every CueInfo produced from a parsed sheet's first file
block (`src/cue.rs` lines 54-63 and 143-171) carries as its track field the
originating track's DECLARED ID (not its 1-based position) rendered in
decimal, and as its tracks field the maximum track id seen in the block; a
3-track sheet with ids 1..3 yields exactly the track fields "1".."3" with
tracks "3" for each. -/
theorem cue_track_id_fields (tracks : List CueTrack) (cd : CueSheet) :
    (∀ info, info ∈ cueFileInfos tracks cd →
      ∃ t, t ∈ tracks ∧ info.track = toString t.id ∧
        info.tracks = toString (maxTrackIndex tracks)) ∧
    ((cueFileInfos [⟨1, [(1, 0)], [], [], []⟩, ⟨2, [(1, 10)], [], [], []⟩,
        ⟨3, [(1, 20)], [], [], []⟩] emptySheet).map CueInfo.track
      = ["1", "2", "3"]) ∧
    ((cueFileInfos [⟨1, [(1, 0)], [], [], []⟩, ⟨2, [(1, 10)], [], [], []⟩,
        ⟨3, [(1, 20)], [], [], []⟩] emptySheet).map CueInfo.tracks
      = ["3", "3", "3"]) := by
  refine ⟨?_, rfl, rfl⟩
  intro info hmem
  obtain ⟨t, ht, heq⟩ := List.mem_filterMap.mp hmem
  rcases hs : trackStart t with _ | s
  · rw [cueTrackInfo.eq_def, hs] at heq
    cases heq
  · rw [cueTrackInfo_some (trackByIndex tracks (t.id + 1))
      (maxTrackIndex tracks) cd hs] at heq
    obtain rfl := Option.some.inj heq
    exact ⟨t, ht, rfl, rfl⟩

/-- Witness for `cue_track_id_fields`: the first CueInfo produced from the
one-track block with declared id 2. -/
theorem cue_track_id_fields_witness :
    ∃ t, t ∈ [(⟨2, [(1, 0)], [], [], []⟩ : CueTrack)] ∧
      ((cueFileInfos [⟨2, [(1, 0)], [], [], []⟩] emptySheet).get
        ⟨0, by decide⟩).track = toString t.id ∧
      ((cueFileInfos [⟨2, [(1, 0)], [], [], []⟩] emptySheet).get
        ⟨0, by decide⟩).tracks
        = toString (maxTrackIndex [⟨2, [(1, 0)], [], [], []⟩]) :=
  (cue_track_id_fields [⟨2, [(1, 0)], [], [], []⟩] emptySheet).1 _
    (List.get_mem _ 0 (by decide))

/-- Unix path component, modelling `std::path::Component` as produced for
the absolute strings handled by `sanitize_filename` (`src/convert.rs` lines
37-43): the leading root, `..` (ParentDir) and normal segments.  `.`
segments are dropped by `components()` itself and never surface here. -/
inductive PComp where
  | root
  | parent
  | normal (seg : List Char)
deriving DecidableEq, Repr

/-- Splitting a character list on the separator, with the usual convention
that a separator ends the current (possibly empty) segment. -/
def splitOnSlash (cs : List Char) : List (List Char) :=
  cs.foldr (fun c acc =>
    if c = '/' then [] :: acc
    else match acc with
      | s :: rest => (c :: s) :: rest
      | [] => [[c]]) [[]]

/-- Components of an absolute path string, modelling Rust
`Path::components()` on a string beginning with `/`: a leading RootDir,
then the non-empty segments with `.` segments dropped, `..` as ParentDir. -/
def parseAbsComponents (cs : List Char) : List PComp :=
  PComp.root ::
    ((splitOnSlash cs).filter (fun s => decide (s ≠ [] ∧ s ≠ ['.']))).map
      (fun s => if s = ['.', '.'] then PComp.parent else PComp.normal s)

/-- Lexical `.`/`..` resolution of the path-dedot crate's `parse_dot` for an
absolute path, as a stack of normal segments: ParentDir pops the last
segment (and is discarded at the root), a normal segment is pushed.  The
root component is retained by `parse_dot` and then removed by the
`strip_prefix("/")` of `sanitize_filename`, so the stack never records it. -/
def dedotAux : List PComp → List (List Char) → List (List Char)
  | [], acc => acc
  | PComp.root :: rest, acc => dedotAux rest acc
  | PComp.parent :: rest, acc => dedotAux rest acc.dropLast
  | PComp.normal s :: rest, acc => dedotAux rest (acc ++ [s])

/-- Normal segments surviving `sanitize_filename` (`src/convert.rs` lines
37-43): the input is pinned under a synthetic root by prefixing `/..///`,
dot-resolved, and the root stripped. -/
def sanitizeFilenameSegs (filename : List Char) : List (List Char) :=
  dedotAux
    (parseAbsComponents (['/', '.', '.', '/', '/', '/'] ++ filename)) []

/-- Rendering of the resulting relative path: surviving segments joined by
the separator (`Path::to_str` of the stripped path). -/
def joinSegs : List (List Char) → List Char
  | [] => []
  | [s] => s
  | s :: t :: rest => s ++ '/' :: joinSegs (t :: rest)

/-- Embedding of `sanitize_filename` (`src/convert.rs` lines 37-43),
returning the final relative path as characters. -/
def sanitizeFilename (filename : List Char) : List Char :=
  joinSegs (sanitizeFilenameSegs filename)

lemma splitOnSlash_ne_nil (cs : List Char) : splitOnSlash cs ≠ [] := by
  induction cs with
  | nil => simp [splitOnSlash]
  | cons c cs ih =>
    rw [splitOnSlash] at ih ⊢
    simp only [List.foldr_cons]
    split_ifs
    · simp
    · rcases h : List.foldr _ _ cs with _ | ⟨s, rest⟩
      · exact absurd h ih
      · simp

lemma mem_splitOnSlash_no_slash (cs : List Char) :
    ∀ s ∈ splitOnSlash cs, '/' ∉ s := by
  induction cs with
  | nil =>
    intro s hs
    rw [splitOnSlash] at hs
    simp at hs
    simp [hs]
  | cons c cs ih =>
    intro s hs
    rw [splitOnSlash, List.foldr_cons] at hs
    by_cases hc : c = '/'
    · rw [if_pos hc] at hs
      rcases List.mem_cons.mp hs with hs | hs
      · simp [hs]
      · exact ih s hs
    · rw [if_neg hc] at hs
      rcases h : splitOnSlash cs with _ | ⟨s0, rest⟩
      · exact absurd h (splitOnSlash_ne_nil cs)
      · rw [show List.foldr _ _ cs = splitOnSlash cs from rfl, h] at hs
        rcases List.mem_cons.mp hs with hs | hs
        · subst hs
          intro hmem
          rcases List.mem_cons.mp hmem with hmem | hmem
          · exact hc hmem.symm
          · exact ih s0 (h ▸ List.mem_cons_self s0 rest) hmem
        · exact ih s (h ▸ List.mem_cons_of_mem s0 hs)

lemma dedotAux_mem {P : List Char → Prop} :
    ∀ (comps : List PComp) (acc : List (List Char)),
      (∀ x ∈ acc, P x) → (∀ s, PComp.normal s ∈ comps → P s) →
      ∀ x ∈ dedotAux comps acc, P x := by
  intro comps
  induction comps with
  | nil =>
    intro acc hacc _ x hx
    exact hacc x hx
  | cons c rest ih =>
    intro acc hacc hcomps x hx
    cases c with
    | root =>
      exact ih acc hacc
        (fun s hs => hcomps s (List.mem_cons_of_mem _ hs)) x hx
    | parent =>
      exact ih acc.dropLast
        (fun y hy => hacc y (List.dropLast_subset _ hy))
        (fun s hs => hcomps s (List.mem_cons_of_mem _ hs)) x hx
    | normal s =>
      refine ih (acc ++ [s]) ?_
        (fun s' hs' => hcomps s' (List.mem_cons_of_mem _ hs')) x hx
      intro y hy
      rcases List.mem_append.mp hy with hy | hy
      · exact hacc y hy
      · rw [List.mem_singleton.mp hy]
        exact hcomps s (List.mem_cons_self _ _)

lemma normal_parseAbs {cs : List Char} {s : List Char}
    (h : PComp.normal s ∈ parseAbsComponents cs) :
    s ≠ [] ∧ s ≠ ['.', '.'] ∧ '/' ∉ s := by
  rcases List.mem_cons.mp h with h | h
  · cases h
  · obtain ⟨a, ha, hmap⟩ := List.mem_map.mp h
    by_cases hdd : a = ['.', '.']
    · rw [if_pos hdd] at hmap
      cases hmap
    · rw [if_neg hdd] at hmap
      obtain rfl := PComp.normal.inj hmap
      have hf := List.mem_filter.mp ha
      have h2 := of_decide_eq_true hf.2
      exact ⟨h2.1, hdd, mem_splitOnSlash_no_slash cs a hf.1⟩

lemma splitOnSlash_cons_slash (t : List Char) :
    splitOnSlash ('/' :: t) = [] :: splitOnSlash t := by
  rw [splitOnSlash, List.foldr_cons, if_pos rfl]
  rfl

lemma splitOnSlash_append (s t : List Char) (h : '/' ∉ s) :
    splitOnSlash (s ++ '/' :: t) = s :: splitOnSlash t := by
  induction s with
  | nil => simpa using splitOnSlash_cons_slash t
  | cons c s' ih =>
    have hc : c ≠ '/' := fun hcon => h (by rw [hcon]; exact List.mem_cons_self _ _)
    have h' : '/' ∉ s' := fun hm => h (List.mem_cons_of_mem _ hm)
    rw [List.cons_append, splitOnSlash, List.foldr_cons, if_neg hc,
      show List.foldr _ _ (s' ++ '/' :: t) = splitOnSlash (s' ++ '/' :: t)
        from rfl,
      ih h']

lemma splitOnSlash_of_no_slash (s : List Char) (h : '/' ∉ s) :
    splitOnSlash s = [s] := by
  induction s with
  | nil => rfl
  | cons c s' ih =>
    have hc : c ≠ '/' := fun hcon => h (by rw [hcon]; exact List.mem_cons_self _ _)
    have h' : '/' ∉ s' := fun hm => h (List.mem_cons_of_mem _ hm)
    rw [splitOnSlash, List.foldr_cons, if_neg hc,
      show List.foldr _ _ s' = splitOnSlash s' from rfl, ih h']

lemma splitOnSlash_joinSegs :
    ∀ segs : List (List Char), (∀ s ∈ segs, '/' ∉ s) → segs ≠ [] →
      splitOnSlash (joinSegs segs) = segs := by
  intro segs
  induction segs with
  | nil =>
    intro _ h
    exact absurd rfl h
  | cons s rest ih =>
    intro hno _
    cases rest with
    | nil => exact splitOnSlash_of_no_slash s (hno s (List.mem_cons_self _ _))
    | cons t rest' =>
      rw [joinSegs, splitOnSlash_append s _ (hno s (List.mem_cons_self _ _)),
        ih (fun x hx => hno x (List.mem_cons_of_mem _ hx)) (by simp)]

lemma joinSegs_head_ne_slash (segs : List (List Char))
    (h : ∀ s ∈ segs, s ≠ [] ∧ '/' ∉ s) : (joinSegs segs).head? ≠ some '/' := by
  cases segs with
  | nil => simp [joinSegs]
  | cons s rest =>
    obtain ⟨hne, hns⟩ := h s (List.mem_cons_self _ _)
    rcases s with _ | ⟨a, s'⟩
    · exact absurd rfl hne
    · have ha : a ≠ '/' :=
        fun hcon => hns (by rw [hcon]; exact List.mem_cons_self _ _)
      cases rest with
      | nil => simp [joinSegs, ha]
      | cons t rest' =>
        rw [joinSegs]
        simp [ha]

/-- C3: for every input string, `sanitize_filename` (`src/convert.rs` lines
37-43) — prefixing with the synthetic root `/..///`, lexically resolving
`.`/`..` segments, and stripping the root — yields a relative path (it does
not begin with the separator) none of whose components is `..` (and none is
empty or contains a separator), so joining it under the output directory
cannot escape it; in particular `../../etc/passwd` becomes `etc/passwd`. -/
theorem sanitize_filename_confines (filename : List Char) :
    (∀ s ∈ sanitizeFilenameSegs filename,
      s ≠ [] ∧ s ≠ ['.', '.'] ∧ '/' ∉ s) ∧
    ['.', '.'] ∉ splitOnSlash (sanitizeFilename filename) ∧
    (sanitizeFilename filename).head? ≠ some '/' ∧
    sanitizeFilename ("../../etc/passwd".toList) = "etc/passwd".toList := by
  have hsegs : ∀ s ∈ sanitizeFilenameSegs filename,
      s ≠ [] ∧ s ≠ ['.', '.'] ∧ '/' ∉ s := by
    intro s hs
    refine @dedotAux_mem (fun s => s ≠ [] ∧ s ≠ ['.', '.'] ∧ '/' ∉ s)
      _ [] (by simp) ?_ s hs
    intro s' hs'
    exact normal_parseAbs hs'
  refine ⟨hsegs, ?_, ?_, by decide⟩
  · rcases hsn : sanitizeFilenameSegs filename with _ | ⟨s, rest⟩
    · rw [sanitizeFilename, hsn]
      decide
    · rw [sanitizeFilename, hsn,
        splitOnSlash_joinSegs (s :: rest)
          (fun x hx => (hsegs x (by rw [hsn]; exact hx)).2.2) (by simp)]
      intro hcon
      exact (hsegs _ (by rw [hsn]; exact hcon)).2.1 rfl
  · refine joinSegs_head_ne_slash _ ?_
    intro s hs
    exact ⟨(hsegs s hs).1, (hsegs s hs).2.2⟩

/-- Witness for `sanitize_filename_confines`: the surviving segment `etc`
of the adversarial input `../../etc/passwd`. -/
theorem sanitize_filename_confines_witness :
    "etc".toList ≠ [] ∧ "etc".toList ≠ ['.', '.'] ∧ '/' ∉ "etc".toList :=
  (sanitize_filename_confines ("../../etc/passwd".toList)).1 "etc".toList
    (by decide)

/-- One unit of conversion work, embedding `Item` from `src/convert.rs`
(lines 18-24). -/
structure Item where
  filename : String
  basename : String
  index : Nat
  total : Nat
  cue : Option CueInfo
deriving DecidableEq, Repr

/-- Extension of a file name, embedding Rust `Path::extension()`: the part
after the last `.`, none when there is no `.`, when the only `.` is the
leading character, or for the special name `..`. -/
def rustExtension (name : String) : Option String :=
  let cs := name.toList
  if cs = ['.', '.'] then none
  else
    let afterRev := cs.reverse.takeWhile (fun c => c ≠ '.')
    if afterRev.length = cs.length then none
    else if afterRev.length + 1 = cs.length then none
    else some (String.mk afterRev.reverse)

/-- Stem of a file name, embedding Rust `Path::file_stem()`: the part
before the last `.` under the same conventions as `rustExtension`. -/
def rustFileStem (name : String) : String :=
  let cs := name.toList
  if cs = ['.', '.'] then name
  else
    let afterRev := cs.reverse.takeWhile (fun c => c ≠ '.')
    if afterRev.length = cs.length then name
    else if afterRev.length + 1 = cs.length then name
    else String.mk (cs.take (cs.length - afterRev.length - 1))

/-- Directory tree entry as observed by `find_files` (`src/files.rs` lines
20-66): a regular file carries its name and the CUE infos that
`find_cue_info` yields for it (empty list models `unwrap_or_default`, i.e.
no usable CUE sidecar); a directory carries its entries. -/
inductive FsEntry where
  | file (name : String) (cues : List CueInfo)
  | dir (name : String) (entries : List FsEntry)

/-- Character-wise lowercasing, embedding `str::to_lowercase` as used on
extensions and cover names (ASCII case mapping, which agrees with Rust on
the ASCII file extensions involved). -/
def rustToLower (s : String) : String :=
  String.mk (s.toList.map Char.toLower)

/-- Extension acceptance of `find_files` (`src/files.rs` lines 29-37): when
the path has an extension, it is lowercased and must be contained in the
accepted list (`continue` otherwise); when there is no extension the check
is skipped entirely and the file proceeds. -/
def extMatches (name : String) (exts : List String) : Bool :=
  match rustExtension name with
  | some e => exts.contains (rustToLower e)
  | none => true

/-- Items pushed for one accepted file (`src/files.rs` lines 38-61): one
item with no CUE data when no CUE info was found, otherwise one item per
CUE info; index/total are filled in later. -/
def fileItems (path name : String) (cues : List CueInfo) : List Item :=
  if cues.isEmpty then [⟨path, rustFileStem name, 0, 0, none⟩]
  else cues.map (fun c => ⟨path, rustFileStem name, 0, 0, some c⟩)

mutual

/-- Collection phase of `find_files` for one directory entry
(`src/files.rs` lines 21-65): directories are recursed into, regular files
are filtered by `extMatches` and expanded by `fileItems`. -/
def fsItems : String → FsEntry → List String → List Item
  | dirPath, FsEntry.file name cues, exts =>
    if extMatches name exts then fileItems (dirPath ++ "/" ++ name) name cues
    else []
  | dirPath, FsEntry.dir name entries, exts =>
    fsItemsList (dirPath ++ "/" ++ name) entries exts

/-- Collection phase of `find_files` over a directory's entry list. -/
def fsItemsList : String → List FsEntry → List String → List Item
  | _, [], _ => []
  | dirPath, e :: es, exts =>
    fsItems dirPath e exts ++ fsItemsList dirPath es exts

end

/-- Collection over the list of root directories (`src/files.rs` lines
14-67), each root given as its path plus its entries. -/
def findFilesCollect (roots : List (String × List FsEntry))
    (exts : List String) : List Item :=
  roots.foldr (fun r acc => fsItemsList r.1 r.2 exts ++ acc) []

/-- Insertion into a sorted list by a boolean comparator. -/
def insertBy (le : Item → Item → Bool) (x : Item) : List Item → List Item
  | [] => [x]
  | y :: ys => if le x y then x :: y :: ys else y :: insertBy le x ys

/-- Sorting pass modelling `items.sort_unstable_by` with the external
lexical-sort crate's natural comparator (`src/files.rs` line 69); the
comparator is taken as a parameter since only the produced permutation
matters for the stated results. -/
def sortItemsBy (le : Item → Item → Bool) (l : List Item) : List Item :=
  l.foldr (insertBy le) []

/-- Index/total assignment loop of `find_files` (`src/files.rs` lines
70-74). -/
def assignIdx : Nat → Nat → List Item → List Item
  | _, _, [] => []
  | i, n, it :: rest => { it with index := i, total := n } :: assignIdx (i + 1) n rest

/-- Embedding of `find_files` (`src/files.rs` lines 11-77): collect,
sort by base name, then assign 0-based indexes and the shared total. -/
def findFiles (le : Item → Item → Bool)
    (roots : List (String × List FsEntry)) (exts : List String) : List Item :=
  let sorted := sortItemsBy le (findFilesCollect roots exts)
  assignIdx 0 sorted.length sorted

mutual

/-- All regular files below one entry, as (full path, file name) pairs. -/
def fsFilePairs : String → FsEntry → List (String × String)
  | dirPath, FsEntry.file name _ => [(dirPath ++ "/" ++ name, name)]
  | dirPath, FsEntry.dir name entries =>
    fsFilePairsList (dirPath ++ "/" ++ name) entries

/-- All regular files below an entry list, as (full path, file name) pairs. -/
def fsFilePairsList : String → List FsEntry → List (String × String)
  | _, [] => []
  | dirPath, e :: es => fsFilePairs dirPath e ++ fsFilePairsList dirPath es

end

/-- All regular files below the root directories. -/
def findFilePairs (roots : List (String × List FsEntry)) :
    List (String × String) :=
  roots.foldr (fun r acc => fsFilePairsList r.1 r.2 ++ acc) []

lemma mem_fileItems {y : Item} {path name : String} {cues : List CueInfo}
    (h : y ∈ fileItems path name cues) : y.filename = path := by
  unfold fileItems at h
  split_ifs at h
  · rw [List.mem_singleton.mp h]
  · obtain ⟨c, _, hc⟩ := List.mem_map.mp h
    rw [← hc]

mutual

theorem fsItems_sound (dirPath : String) (e : FsEntry) (exts : List String)
    (y : Item) (hy : y ∈ fsItems dirPath e exts) :
    ∃ pr ∈ fsFilePairs dirPath e, y.filename = pr.1 ∧
      (∀ ex, rustExtension pr.2 = some ex →
        exts.contains (rustToLower ex) = true) := by
  cases e with
  | file name cues =>
    rw [fsItems] at hy
    split_ifs at hy with hm
    · refine ⟨(dirPath ++ "/" ++ name, name), ?_, mem_fileItems hy, ?_⟩
      · rw [fsFilePairs]
        exact List.mem_singleton.mpr rfl
      · intro ex hex
        rw [extMatches, hex] at hm
        exact hm
    · cases hy
  | dir name entries =>
    rw [fsItems] at hy
    obtain ⟨pr, hpr, h1, h2⟩ :=
      fsItemsList_sound (dirPath ++ "/" ++ name) entries exts y hy
    refine ⟨pr, ?_, h1, h2⟩
    rw [fsFilePairs]
    exact hpr

theorem fsItemsList_sound (dirPath : String) (es : List FsEntry)
    (exts : List String) (y : Item) (hy : y ∈ fsItemsList dirPath es exts) :
    ∃ pr ∈ fsFilePairsList dirPath es, y.filename = pr.1 ∧
      (∀ ex, rustExtension pr.2 = some ex →
        exts.contains (rustToLower ex) = true) := by
  cases es with
  | nil =>
    rw [fsItemsList] at hy
    cases hy
  | cons e es' =>
    rw [fsItemsList] at hy
    rcases List.mem_append.mp hy with hy | hy
    · obtain ⟨pr, hpr, h1, h2⟩ := fsItems_sound dirPath e exts y hy
      refine ⟨pr, ?_, h1, h2⟩
      rw [fsFilePairsList]
      exact List.mem_append.mpr (Or.inl hpr)
    · obtain ⟨pr, hpr, h1, h2⟩ := fsItemsList_sound dirPath es' exts y hy
      refine ⟨pr, ?_, h1, h2⟩
      rw [fsFilePairsList]
      exact List.mem_append.mpr (Or.inr hpr)

end

lemma findFilesCollect_sound (roots : List (String × List FsEntry))
    (exts : List String) (y : Item) (hy : y ∈ findFilesCollect roots exts) :
    ∃ pr ∈ findFilePairs roots, y.filename = pr.1 ∧
      (∀ ex, rustExtension pr.2 = some ex →
        exts.contains (rustToLower ex) = true) := by
  induction roots with
  | nil =>
    rw [findFilesCollect] at hy
    cases hy
  | cons r rs ih =>
    rw [findFilesCollect, List.foldr_cons] at hy
    rcases List.mem_append.mp hy with hy | hy
    · obtain ⟨pr, hpr, h1, h2⟩ := fsItemsList_sound r.1 r.2 exts y hy
      exact ⟨pr, List.mem_append.mpr (Or.inl hpr), h1, h2⟩
    · obtain ⟨pr, hpr, h1, h2⟩ := ih hy
      exact ⟨pr, List.mem_append.mpr (Or.inr hpr), h1, h2⟩

lemma mem_insertBy {le : Item → Item → Bool} {x y : Item} :
    ∀ {l : List Item}, y ∈ insertBy le x l → y = x ∨ y ∈ l := by
  intro l
  induction l with
  | nil =>
    intro h
    rw [insertBy] at h
    exact Or.inl (List.mem_singleton.mp h)
  | cons z zs ih =>
    intro h
    rw [insertBy] at h
    split_ifs at h
    · rcases List.mem_cons.mp h with h | h
      · exact Or.inl h
      · exact Or.inr h
    · rcases List.mem_cons.mp h with h | h
      · exact Or.inr (h ▸ List.mem_cons_self z zs)
      · rcases ih h with h | h
        · exact Or.inl h
        · exact Or.inr (List.mem_cons_of_mem z h)

lemma mem_sortItemsBy {le : Item → Item → Bool} {y : Item} :
    ∀ {l : List Item}, y ∈ sortItemsBy le l → y ∈ l := by
  intro l
  induction l with
  | nil =>
    intro h
    cases h
  | cons z zs ih =>
    intro h
    rw [sortItemsBy, List.foldr_cons] at h
    rcases mem_insertBy h with h | h
    · exact h ▸ List.mem_cons_self z zs
    · exact List.mem_cons_of_mem z (ih h)

lemma mem_assignIdx {y : Item} :
    ∀ {i n : Nat} {l : List Item}, y ∈ assignIdx i n l →
      ∃ x ∈ l, ∃ j, y = { x with index := j, total := n } := by
  intro i n l
  induction l generalizing i with
  | nil =>
    intro h
    cases h
  | cons z zs ih =>
    intro h
    rw [assignIdx] at h
    rcases List.mem_cons.mp h with h | h
    · exact ⟨z, List.mem_cons_self z zs, i, h⟩
    · obtain ⟨x, hx, j, hj⟩ := ih h
      exact ⟨x, List.mem_cons_of_mem z hx, j, hj⟩

/-- C9 counterexample: with accepted extensions `["mp3"]`, a regular file
named `README` — which has no extension at all — is nevertheless emitted by
`find_files` (`src/files.rs` lines 29-37 skip the extension check entirely
when `path.extension()` is None), so not every emitted item's file has an
extension matching the accepted list. -/
theorem find_files_ext_counterexample :
    findFiles (fun _ _ => true) [("root", [FsEntry.file "README" []])] ["mp3"]
      = [⟨"root/README", "README", 0, 1, none⟩] ∧
    rustExtension "README" = none := by
  constructor
  · rfl
  · rfl

/-- C9 (amended): every item emitted by `find_files` (`src/files.rs` lines
11-77) stems from a regular file of the walked tree, and whenever that
file's name HAS an extension, the lowercased extension is contained in the
accepted list (files with a non-matching extension are never emitted);
files without any extension, however, are emitted unconditionally. -/
theorem find_files_ext_filter (le : Item → Item → Bool)
    (roots : List (String × List FsEntry)) (exts : List String) :
    ∀ item ∈ findFiles le roots exts,
      ∃ pr ∈ findFilePairs roots,
        item.filename = pr.1 ∧
        (∀ ex, rustExtension pr.2 = some ex →
          exts.contains (rustToLower ex) = true) := by
  intro item hitem
  rw [findFiles] at hitem
  obtain ⟨x, hx, j, hj⟩ := mem_assignIdx hitem
  obtain ⟨pr, hpr, h1, h2⟩ :=
    findFilesCollect_sound roots exts x (mem_sortItemsBy hx)
  refine ⟨pr, hpr, ?_, h2⟩
  rw [hj]
  exact h1

/-- Witness for `find_files_ext_filter` at a single accepted mp3 file. -/
theorem find_files_ext_filter_witness :
    ∃ pr ∈ findFilePairs [("root", [FsEntry.file "a.mp3" []])],
      (⟨"root/a.mp3", "a", 0, 1, none⟩ : Item).filename = pr.1 ∧
      (∀ ex, rustExtension pr.2 = some ex →
        (["mp3"] : List String).contains (rustToLower ex) = true) :=
  find_files_ext_filter (fun _ _ => true)
    [("root", [FsEntry.file "a.mp3" []])] ["mp3"]
    ⟨"root/a.mp3", "a", 0, 1, none⟩ (by decide)

/-- Character removed by the sanitize-filename crate's ILLEGAL_RE
(`[/\?<>\\:\*\|"]`), as configured by `filesafe_str` (`src/meta.rs` lines
196-202) with empty replacement. -/
def isIllegalChar (c : Char) : Bool :=
  c = '/' || c = '?' || c = '<' || c = '>' || c = '\\' || c = ':' ||
  c = '*' || c = '|' || c = '"'

/-- Character removed by the sanitize-filename crate's CONTROL_RE
(`[\x00-\x1f\x80-\x9f]`). -/
def isControlChar (c : Char) : Bool :=
  c.toNat ≤ 0x1f || (0x80 ≤ c.toNat && c.toNat ≤ 0x9f)

/-- Byte-budget truncation at character boundaries, embedding the
sanitize-filename crate's 255-byte truncate option. -/
def truncBytes : Nat → List Char → List Char
  | _, [] => []
  | budget, c :: cs =>
    if c.utf8Size ≤ budget then c :: truncBytes (budget - c.utf8Size) cs
    else []

/-- Embedding of `filesafe_str` (`src/meta.rs` lines 196-202): the
sanitize-filename crate with empty replacement, `windows: false` and
truncation — illegal and control characters are removed, an all-dots
result (RESERVED_RE `^\.+$`) collapses to empty, and the result is
truncated to 255 bytes. -/
def filesafeStr (s : String) : String :=
  let cs := s.toList.filter (fun c => !(isIllegalChar c) && !(isControlChar c))
  let cs := if cs ≠ [] ∧ cs.all (fun c => c = '.') then [] else cs
  String.mk (truncBytes 255 cs)

/-- Embedding of `sanitize_tags` (`src/meta.rs` lines 204-231): every field
passed through `filesafe_str`. -/
def sanitizeTags (meta : MetaTags) : MetaTags :=
  { title := filesafeStr meta.title
    album := filesafeStr meta.album
    artist := filesafeStr meta.artist
    catalog_number := filesafeStr meta.catalog_number
    author := filesafeStr meta.author
    comment := filesafeStr meta.comment
    composer := filesafeStr meta.composer
    lyricist := filesafeStr meta.lyricist
    songwriter := filesafeStr meta.songwriter
    date := filesafeStr meta.date
    disc := filesafeStr meta.disc
    discs := filesafeStr meta.discs
    disc_id := filesafeStr meta.disc_id
    track := filesafeStr meta.track
    tracks := filesafeStr meta.tracks
    genre := filesafeStr meta.genre
    label := filesafeStr meta.label
    performer := filesafeStr meta.performer
    publisher := filesafeStr meta.publisher
    year := filesafeStr meta.year
    file_name := filesafeStr meta.file_name
    dir_name := filesafeStr meta.dir_name
    file_base := filesafeStr meta.file_base
    file_ext := filesafeStr meta.file_ext }

/-- Embedding of `add_meta` (`src/convert.rs` lines 49-55): appends
`-metadata name=val` only when the value is non-empty. -/
def addMeta (args : List String) (val name : String) : List String :=
  if val.isEmpty then args else args ++ ["-metadata", name ++ "=" ++ val]

/-- Metadata arguments built by `conv_item` (`src/convert.rs` lines
151-166); note they are computed from `meta.tags`, the resolver output
BEFORE the fallback chain, with track and tracks combined as
`track/tracks` when both are present. -/
def embeddedMetaArgs (meta : MetaTags) : List String :=
  let a := addMeta [] meta.album "album"
  let a := addMeta a meta.composer "composer"
  let a := addMeta a meta.genre "genre"
  let a := addMeta a meta.title "title"
  let a := addMeta a meta.artist "artist"
  let a := addMeta a meta.performer "performer"
  let a := addMeta a meta.disc "disc"
  let a := addMeta a meta.publisher "publisher"
  let a := addMeta a meta.date "date"
  let a := addMeta a meta.year "year"
  if !meta.track.isEmpty && !meta.tracks.isEmpty then
    addMeta a (meta.track ++ "/" ++ meta.tracks) "track"
  else
    addMeta a meta.track "track"

/-- The two per-item tag flows of `conv_item` (`src/convert.rs` lines
115-130 and 151-166). -/
structure ConvTagFlow where
  embedded : List String
  filenameTags : MetaTags

/-- Tag processing of `conv_item` (`src/convert.rs` lines 115-130): the
fallback chain and padding are applied to a clone used (after
sanitization) for filename rendering, while the embedded metadata
arguments are built from the untouched `meta.tags`. -/
def convItemTagFlow (minDigits : Nat) (raw : MetaTags) : ConvTagFlow :=
  let tags := fillFallbackTags raw
  let tags := padTrackTags minDigits tags
  { embedded := embeddedMetaArgs raw
    filenameTags := sanitizeTags tags }

lemma mem_addMeta (args : List String) (v n : String)
    (h : v.isEmpty = false) : (n ++ "=" ++ v) ∈ addMeta args v n := by
  simp [addMeta, h]

lemma mem_addMeta_mono {x : String} (args : List String) (v n : String)
    (h : x ∈ args) : x ∈ addMeta args v n := by
  unfold addMeta
  split_ifs
  · exact h
  · exact List.mem_append.mpr (Or.inl h)

/-- C8 counterexample: for a raw resolver TagSet with empty title but
file base "song", the fallback-resolved TagSet has title "song", yet
`conv_item` emits NO metadata arguments at all — the embedded tags are the
raw pre-fallback values, not the fallback-resolved TagSet. -/
theorem conv_item_embedded_counterexample :
    embeddedMetaArgs { emptyTags with file_base := "song" } = [] ∧
    (fillFallbackTags { emptyTags with file_base := "song" }).title
      = "song" ∧
    ("song" : String) ≠ "" ∧
    (convItemTagFlow 1 { emptyTags with file_base := "song" }).embedded
      = [] := by
  refine ⟨by decide, by decide, by decide, by decide⟩

/-- C8 (amended): in `conv_item` the embedded metadata arguments are built
from the RAW resolver TagSet (before the fallback chain), one argument per
non-empty raw field with track/tracks combined; the filename-facing TagSet
is the fallback-resolved, padding-adjusted TagSet passed through
path-sanitization; padding (any minimum digit configuration) never alters
the embedded arguments. -/
theorem conv_item_tag_flows (minDigits minDigits' : Nat) (raw : MetaTags) :
    (convItemTagFlow minDigits raw).embedded = embeddedMetaArgs raw ∧
    (convItemTagFlow minDigits raw).filenameTags
      = sanitizeTags (padTrackTags minDigits (fillFallbackTags raw)) ∧
    (convItemTagFlow minDigits raw).embedded
      = (convItemTagFlow minDigits' raw).embedded ∧
    (raw.title.isEmpty = false →
      ("title" ++ "=" ++ raw.title) ∈ embeddedMetaArgs raw) := by
  refine ⟨rfl, rfl, rfl, ?_⟩
  intro h
  unfold embeddedMetaArgs
  split_ifs <;>
    exact mem_addMeta_mono _ _ _ (mem_addMeta_mono _ _ _
      (mem_addMeta_mono _ _ _ (mem_addMeta_mono _ _ _
        (mem_addMeta_mono _ _ _ (mem_addMeta_mono _ _ _
          (mem_addMeta_mono _ _ _ (mem_addMeta _ raw.title "title" h)))))))

/-- Witness for `conv_item_tag_flows` at a raw TagSet with title "t". -/
theorem conv_item_tag_flows_witness :
    ("title" ++ "=" ++ ({ emptyTags with title := "t" } : MetaTags).title)
      ∈ embeddedMetaArgs { emptyTags with title := "t" } :=
  (conv_item_tag_flows 1 2 { emptyTags with title := "t" }).2.2.2 (by decide)
